import Mathlib

/-!
Shallow embedding of `lint/lintutil` (package `lintutil`) from the go-tools
repository: the `Lint` aggregation pipeline, `compileErrors` synthesis,
`parseIgnore` suppression-rule parsing, the `versionFlag` setter, and the
severity/exit classification loop of `ProcessFlagSet`.

Machine integers are modelled as `Int`/`Nat`; Go strings as `String` or
`List Char`.  External collaborators (`packages.Load`, the `lint` package's
`Problem`/`Ignore`/`Linter` types, `strconv.Atoi`) are modelled at their
interface as described in the specification; every function of the
`lintutil` source itself is translated statement by statement.
-/

set_option maxHeartbeats 1000000

/-- Source position of a diagnostic.  Modelled from the spec: the `lint`
package (outside the provided sources) stores a position as
(filename, line, column); line and column are Go machine ints. -/
structure Position where
  Filename : String
  Line : Int
  Column : Int
deriving DecidableEq, Repr

/-- One diagnostic.  Modelled from the spec: `lint.Problem` (outside the
provided sources) carries a position, a message text, the owning checker id
and the check id. -/
structure Problem where
  Position : Position
  Text : String
  Checker : String
  Check : String
deriving DecidableEq, Repr

/-- Zero value of `Problem`, as produced by `var p lint.Problem` in Go. -/
def zeroProblem : Problem :=
  ⟨⟨"", 0, 0⟩, "", "", ""⟩

/-- One entry of `pkg.Errors`.  In the source the entries are `error`
interface values inspected by a type switch: either a `types.Error`
(whose file set resolves its position) or a value of any other dynamic
type, of which only the type name is printed. -/
inductive PkgError where
  | typesError (pos : Position) (msg : String)
  | other (typeName : String)
deriving DecidableEq, Repr

/-- One loaded program unit: `packages.Package` restricted to the fields the
source reads (`IllTyped`, `Errors`, `Imports`).  `Imports` is a Go map
keyed by import path; it is modelled as an association list carrying one
iteration order of that map. -/
inductive Package where
  | mk (illTyped : Bool) (errors : List PkgError) (imports : List (String × Package))

/-- Field `IllTyped` of a package. -/
def Package.IllTyped : Package → Bool
  | .mk i _ _ => i

/-- Field `Errors` of a package. -/
def Package.Errors : Package → List PkgError
  | .mk _ e _ => e

/-- Field `Imports` of a package, in one map-iteration order. -/
def Package.Imports : Package → List (String × Package)
  | .mk _ _ im => im

/-- Body of the `for _, err := range pkg.Errors` loop of `compileErrors`:
a `types.Error` fills `p` with position, message, checker `compiler` and
check `compile`; any other dynamic type prints an internal-error line to
stderr and leaves `p` at its zero value.  In both cases the loop then
executes `ps = append(ps, p)`.  The second component collects the stderr
lines. -/
def compileErrorsLoop (errs : List PkgError) : List Problem × List String :=
  errs.foldl
    (fun acc err =>
      match err with
      | .typesError pos msg =>
          (acc.1 ++ [⟨pos, msg, "compiler", "compile"⟩], acc.2)
      | .other typeName =>
          (acc.1 ++ [zeroProblem],
           acc.2 ++ ["internal error: unhandled error type " ++ typeName]))
    ([], [])

mutual

/-- Function `compileErrors` of the source: returns `nil` for a well-typed
package; for an ill-typed package with no explicit errors it recurses over
`pkg.Imports` and concatenates; otherwise it runs the error loop.  The
second component is the stream of stderr lines the call emits. -/
def compileErrors : Package → List Problem × List String
  | .mk illTyped errors imports =>
    if illTyped = false then ([], [])
    else if errors.isEmpty then compileErrorsImports imports
    else compileErrorsLoop errors

/-- Iteration of `for _, imp := range pkg.Imports` inside `compileErrors`,
appending the recursive results in the given map-iteration order. -/
def compileErrorsImports : List (String × Package) → List Problem × List String
  | [] => ([], [])
  | (_, imp) :: rest =>
    let a := compileErrors imp
    let b := compileErrorsImports rest
    (a.1 ++ b.1, a.2 ++ b.2)

end

/-- Predicate of `unicode.IsSpace` (the separator test of `strings.Fields`):
the Unicode white-space code points. -/
def goIsSpace (c : Char) : Bool :=
  (9 ≤ c.toNat && c.toNat ≤ 13) || c.toNat = 32 || c.toNat = 0x85 ||
    c.toNat = 0xA0 || c.toNat = 0x1680 ||
    (0x2000 ≤ c.toNat && c.toNat ≤ 0x200A) || c.toNat = 0x2028 ||
    c.toNat = 0x2029 || c.toNat = 0x202F || c.toNat = 0x205F ||
    c.toNat = 0x3000

/-- Splitting of a character list at every character satisfying `p`,
keeping empty chunks: the semantics of Go `strings.Split` for a
one-character separator when `p` tests for that character. -/
def splitPred (p : Char → Bool) : List Char → List (List Char)
  | [] => [[]]
  | c :: rest =>
    match splitPred p rest with
    | [] => [[c]]
    | h :: t => if p c then [] :: h :: t else (c :: h) :: t

/-- Go `strings.Split(s, sep)` for a one-character separator `sep`. -/
def splitChar (sep : Char) (cs : List Char) : List (List Char) :=
  splitPred (fun c => c = sep) cs

/-- Go `strings.Fields`: the maximal runs of non-white-space characters,
that is, the non-empty chunks of the split at white space. -/
def goFields (cs : List Char) : List (List Char) :=
  (splitPred goIsSpace cs).filter (fun f => ¬ f.isEmpty)

/-- One suppression rule.  Modelled from the spec: `lint.GlobIgnore`
(outside the provided sources) holds a unit-path glob pattern and a list of
check-name patterns. -/
structure GlobIgnore where
  Pattern : String
  Checks : List String
deriving DecidableEq, Repr

/-- Loop body of `parseIgnore`: each whitespace-separated token is split at
`:`; a token whose split has not exactly two parts is a fatal parse error;
otherwise the first part is the path pattern and the comma-split of the
second part the check list. -/
def parseIgnoreTokens : List (List Char) → Except String (List GlobIgnore)
  | [] => .ok []
  | part :: rest =>
    match splitChar ':' part with
    | [path, checks] =>
      match parseIgnoreTokens rest with
      | .error e => .error e
      | .ok out =>
          .ok (⟨path.asString, (splitChar ',' checks).map List.asString⟩ :: out)
    | _ => .error ("malformed ignore string")

/-- Function `parseIgnore` of the source: empty text yields no rules;
otherwise the whitespace-separated fields are parsed one by one. -/
def parseIgnore (s : String) : Except String (List GlobIgnore) :=
  if s.toList.isEmpty then .ok []
  else parseIgnoreTokens (goFields s.toList)

/-- Run options of `Lint` (`Options` in the source). -/
structure Options where
  Tags : List String
  LintTests : Bool
  Ignores : String
  GoVersion : Int
  ReturnIgnored : Bool
deriving Repr

/-- Default (zero-value) options, as built by `opt = &Options{}`. -/
def defaultOptions : Options :=
  ⟨[], false, "", 0, false⟩

/-- One checker run.  Modelled from the spec: a checker is a pure function
from the well-typed unit set to a diagnostic list (§4.3); `lint.Linter`
(outside the provided sources) drives one checker over the unit list, so
the per-run configuration is folded into the function itself. -/
abbrev Checker := List Package → List Problem

/-- Comparison closure passed to `sort.Slice` in `Lint`: strict
lexicographic comparison on (filename, line, column, message). -/
def probLess (pi pj : Problem) : Bool :=
  if pi.Position.Filename ≠ pj.Position.Filename then
    decide (pi.Position.Filename < pj.Position.Filename)
  else if pi.Position.Line ≠ pj.Position.Line then
    decide (pi.Position.Line < pj.Position.Line)
  else if pi.Position.Column ≠ pj.Position.Column then
    decide (pi.Position.Column < pj.Position.Column)
  else
    decide (pi.Text < pj.Text)

/-- Non-strict counterpart of `probLess`, used as the order handed to the
sorting routine: `a` may precede `b` iff `b` is not strictly less. -/
def probLe (a b : Problem) : Bool :=
  ! probLess b a

/-- Inner loop of the deduplication pass of `Lint`: `prev` is the last kept
problem; a problem equal to it in position and text is skipped, any other
is kept and becomes the new `prev`. -/
def uniqGo (prev : Problem) : List Problem → List Problem
  | [] => []
  | p :: rest =>
    if prev.Position = p.Position ∧ prev.Text = p.Text then uniqGo prev rest
    else p :: uniqGo p rest

/-- Deduplication pass of `Lint`: the first problem is always kept, the
rest run through `uniqGo`. -/
def uniqProblems : List Problem → List Problem
  | [] => []
  | p :: rest => p :: uniqGo p rest

/-- Partition loop of `Lint`: ill-typed packages contribute their
synthesized compile errors, the others are collected as working packages,
in input order. -/
def lintPartition (pkgs : List Package) : List Problem × List Package :=
  pkgs.foldl
    (fun acc pkg =>
      if pkg.IllTyped then (acc.1 ++ (compileErrors pkg).1, acc.2)
      else (acc.1, acc.2 ++ [pkg]))
    ([], [])

/-- Tail of `Lint` past the partition: the problem list is sorted with the
`sort.Slice` comparison; a sorted list of fewer than two entries is returned
as is (the source checks `len(problems) < 2` after sorting), any other runs
through the deduplication loop. -/
def lintSortDedup (problems : List Problem) : List Problem :=
  if (problems.mergeSort probLe).length < 2 then problems.mergeSort probLe
  else uniqProblems (problems.mergeSort probLe)

/-- Function `Lint` of the source, taking the loaded unit graph directly
(`packages.Load` is the external Loader of spec §6; a load failure returns
before this logic runs).  The ignore text is parsed first and a parse error
is returned unchanged; then packages are partitioned; if no working package
remains the synthesized problems are returned as they are; otherwise every
checker runs over the full working set and the combined list is sorted and
deduplicated. -/
def Lint (cs : List Checker) (pkgs : List Package) (opt : Options) :
    Except String (List Problem) :=
  match parseIgnore opt.Ignores with
  | .error e => .error e
  | .ok _ignores =>
    if (lintPartition pkgs).2.isEmpty then .ok (lintPartition pkgs).1
    else
      .ok (lintSortDedup
        ((lintPartition pkgs).1 ++
          cs.foldl (fun acc c => acc ++ c (lintPartition pkgs).2) []))

/-- Registration of one checker (`CheckerConfig` in the source). -/
structure CheckerConfig where
  Checker : Checker
  ExitNonZero : Bool

/-- Classification loop of `ProcessFlagSet`: each problem whose checker id
is absent from the registration map, or registered with `ExitNonZero`,
counts as an error, every other as a warning.  The Go map is modelled as a
lookup function.  Returns (errors, warnings). -/
def countsOf (confs : String → Option CheckerConfig) (ps : List Problem) :
    Nat × Nat :=
  ps.foldl
    (fun acc p =>
      match confs p.Checker with
      | none => (acc.1 + 1, acc.2)
      | some conf =>
          if conf.ExitNonZero then (acc.1 + 1, acc.2) else (acc.1, acc.2 + 1))
    (0, 0)

/-- Exit policy of `ProcessFlagSet`: the run fails (`os.Exit(1)`) iff the
error count is positive. -/
def processExitFailure (confs : String → Option CheckerConfig)
    (ps : List Problem) : Bool :=
  decide (0 < (countsOf confs ps).1)

/-- Hard-failure test on a single problem, as the specification phrases the
classification: checker id absent from the registration map, or registered
with the hard-failure flag. -/
def isHard (confs : String → Option CheckerConfig) (p : Problem) : Bool :=
  match confs p.Checker with
  | none => true
  | some conf => conf.ExitNonZero

/-- Numeric value of a list of decimal digit characters. -/
def digitsVal (ds : List Char) : Nat :=
  ds.foldl (fun a c => a * 10 + (c.toNat - 48)) 0

/-- Go `strconv.Atoi` on a 64-bit platform: an optional sign followed by at
least one decimal digit; any other shape returns (0, error); a value
outside the signed 64-bit range returns the nearest representable bound
together with a range error.  The boolean is true iff an error is
returned. -/
def atoi (cs : List Char) : Int × Bool :=
  match cs with
  | [] => (0, true)
  | c :: t =>
    let ds : List Char := if c = '-' ∨ c = '+' then t else c :: t
    if ds.isEmpty then (0, true)
    else if ¬ ds.all Char.isDigit then (0, true)
    else
      let v := digitsVal ds
      if c = '-' then
        if 2 ^ 63 < v then (- (2 ^ 63 : Int), true) else (- (v : Int), false)
      else
        if 2 ^ 63 ≤ v then ((2 ^ 63 : Int) - 1, true) else ((v : Int), false)

/-- Method `versionFlag.Set` of the source as a state transformer over the
character list of its argument: a string shorter than three characters, or
not starting with `1.`, is rejected with the stored value unchanged;
otherwise the suffix is passed to `Atoi`, its result is stored
unconditionally (`*v = versionFlag(i)` precedes the error return) and the
`Atoi` error, if any, is returned (its message is abbreviated here). -/
def versionFlagSetList (v : Int) (cs : List Char) : Int × Option String :=
  match cs with
  | c0 :: c1 :: c2 :: rest =>
    if c0 ≠ '1' then (v, some ("invalid Go version"))
    else if c1 ≠ '.' then (v, some ("invalid Go version"))
    else
      let r := atoi (c2 :: rest)
      (r.1, if r.2 then some ("Atoi error") else none)
  | _ => (v, some ("invalid Go version"))

/-- Method `versionFlag.Set` of the source on the string argument. -/
def versionFlagSet (v : Int) (s : String) : Int × Option String :=
  versionFlagSetList v s.toList

/-- Program unit for the index-based view of the dependency graph, used to
study `compileErrors` on graphs that are not trees: `imports` holds indices
into the ambient unit list, so cycles are representable. -/
structure GraphPkg where
  illTyped : Bool
  errors : List PkgError
  imports : List Nat
deriving Repr

/-- Fuel-indexed embedding of the recursion of `compileErrors` over an
index-based unit graph.  The source recursion carries no visited set and no
bound; the fuel only makes the embedding total: `none` means the recursion
has not finished within the given depth, so an input on which every fuel
yields `none` is an input on which the source recursion never returns.
An index outside the graph (impossible for the Go pointer graph) yields no
problems. -/
def compileErrorsFuel (g : List GraphPkg) : Nat → Nat → Option (List Problem)
  | 0, _ => none
  | fuel + 1, i =>
    match g[i]? with
    | none => some []
    | some pkg =>
      if pkg.illTyped = false then some []
      else if pkg.errors.isEmpty then
        pkg.imports.foldl
          (fun acc j =>
            match acc with
            | none => none
            | some a =>
              match compileErrorsFuel g fuel j with
              | none => none
              | some b => some (a ++ b))
          (some [])
      else some (compileErrorsLoop pkg.errors).1

/-- Sample type error located in file `a.go`. -/
def errA : PkgError := .typesError ⟨"a.go", 1, 1⟩ "errA"

/-- Sample type error located in file `b.go`. -/
def errB : PkgError := .typesError ⟨"b.go", 1, 1⟩ "errB"

/-- Diagnostic synthesized from `errA`. -/
def probA : Problem := ⟨⟨"a.go", 1, 1⟩, "errA", "compiler", "compile"⟩

/-- Diagnostic synthesized from `errB`. -/
def probB : Problem := ⟨⟨"b.go", 1, 1⟩, "errB", "compiler", "compile"⟩

/-- Ill-typed unit carrying `errA`. -/
def pkgIllA : Package := .mk true [errA] []

/-- Ill-typed unit carrying `errB`. -/
def pkgIllB : Package := .mk true [errB] []

/-- Ill-typed unit carrying the same explicit error twice. -/
def pkgDup : Package := .mk true [errA, errA] []

/-- Ill-typed unit with no explicit errors whose error value has an
unrecognized dynamic type, followed by an ordinary type error. -/
def pkgOther : Package := .mk true [.other "*errors.errorString", errA] []

/-- Transitively ill-typed unit whose import map iterates `a` before `b`. -/
def pkgTransAB : Package := .mk true [] [("a", pkgIllA), ("b", pkgIllB)]

/-- Transitively ill-typed unit over the same import map, iterated `b`
before `a`. -/
def pkgTransBA : Package := .mk true [] [("b", pkgIllB), ("a", pkgIllA)]

/-- Dependency graph with a single ill-typed unit, no explicit errors and a
self-import: the smallest cyclic unit graph. -/
def cyclicGraph : List GraphPkg := [⟨true, [], [0]⟩]

/-- Registration map classifying every checker id as soft. -/
def confsSoft : String → Option CheckerConfig :=
  fun _ => some ⟨fun _ => [], false⟩

/-- Diagnostic list of one problem owned by checker `sc`. -/
def psSoft : List Problem := [⟨⟨"a.go", 1, 1⟩, "msg", "sc", "c"⟩]

/-- Well-typed unit with no errors and no imports. -/
def pkgWell : Package := .mk false [] []

/-- Lexicographic order on (filename, line, column, message), written as the
specification states it. -/
def keyLe (p q : Problem) : Prop :=
  p.Position.Filename < q.Position.Filename ∨
    (p.Position.Filename = q.Position.Filename ∧
      (p.Position.Line < q.Position.Line ∨
        (p.Position.Line = q.Position.Line ∧
          (p.Position.Column < q.Position.Column ∨
            (p.Position.Column = q.Position.Column ∧ p.Text ≤ q.Text)))))

/-- Adjacent-distinctness used by the deduplication claims: two problems
differ in position or in message. -/
def adjDistinct (p q : Problem) : Prop :=
  ¬ (p.Position = q.Position ∧ p.Text = q.Text)

/-- Version strings of the shape the claim describes: the characters `1`
and `.` followed by a non-empty run of decimal digits. -/
def specForm1N (s : String) : Prop :=
  ∃ ds : List Char, ds ≠ [] ∧ (∀ c ∈ ds, c.isDigit) ∧
    s.toList = '1' :: '.' :: ds

/-- Rule a single well-formed suppression token describes, written as the
specification states it: the part before the colon is the path pattern, the
comma-split of the part after it the check-name patterns. -/
def tokenRule (part : List Char) : GlobIgnore :=
  match splitChar ':' part with
  | [path, checks] => ⟨path.asString, (splitChar ',' checks).map List.asString⟩
  | _ => ⟨"", []⟩

/-- Number of colon characters in a token. -/
def colonCount (part : List Char) : Nat :=
  part.countP (fun c => c = ':')

lemma keyLe_total (a b : Problem) : keyLe a b ∨ keyLe b a := by
  unfold keyLe
  rcases lt_trichotomy a.Position.Filename b.Position.Filename with h | h | h
  · exact Or.inl (Or.inl h)
  · rcases lt_trichotomy a.Position.Line b.Position.Line with h2 | h2 | h2
    · exact Or.inl (Or.inr ⟨h, Or.inl h2⟩)
    · rcases lt_trichotomy a.Position.Column b.Position.Column with h3 | h3 | h3
      · exact Or.inl (Or.inr ⟨h, Or.inr ⟨h2, Or.inl h3⟩⟩)
      · rcases le_total a.Text b.Text with h4 | h4
        · exact Or.inl (Or.inr ⟨h, Or.inr ⟨h2, Or.inr ⟨h3, h4⟩⟩⟩)
        · exact Or.inr (Or.inr ⟨h.symm, Or.inr ⟨h2.symm, Or.inr ⟨h3.symm, h4⟩⟩⟩)
      · exact Or.inr (Or.inr ⟨h.symm, Or.inr ⟨h2.symm, Or.inl h3⟩⟩)
    · exact Or.inr (Or.inr ⟨h.symm, Or.inl h2⟩)
  · exact Or.inr (Or.inl h)

lemma keyLe_trans (a b c : Problem) : keyLe a b → keyLe b c → keyLe a c := by
  unfold keyLe
  intro h1 h2
  rcases h1 with h1 | ⟨e1, h1⟩
  · rcases h2 with h2 | ⟨e2, h2⟩
    · exact Or.inl (h1.trans h2)
    · exact Or.inl (lt_of_lt_of_eq h1 e2)
  · rcases h2 with h2 | ⟨e2, h2⟩
    · exact Or.inl (lt_of_eq_of_lt e1 h2)
    · refine Or.inr ⟨e1.trans e2, ?_⟩
      rcases h1 with h1 | ⟨f1, h1⟩
      · rcases h2 with h2 | ⟨f2, h2⟩
        · exact Or.inl (h1.trans h2)
        · exact Or.inl (lt_of_lt_of_eq h1 f2)
      · rcases h2 with h2 | ⟨f2, h2⟩
        · exact Or.inl (lt_of_eq_of_lt f1 h2)
        · refine Or.inr ⟨f1.trans f2, ?_⟩
          rcases h1 with h1 | ⟨g1, h1⟩
          · rcases h2 with h2 | ⟨g2, h2⟩
            · exact Or.inl (h1.trans h2)
            · exact Or.inl (lt_of_lt_of_eq h1 g2)
          · rcases h2 with h2 | ⟨g2, h2⟩
            · exact Or.inl (lt_of_eq_of_lt g1 h2)
            · exact Or.inr ⟨g1.trans g2, h1.trans h2⟩

lemma probLess_false_iff (a b : Problem) : probLess b a = false ↔ keyLe a b := by
  constructor
  · intro h
    unfold probLess at h
    split_ifs at h with h1 h2 h3 <;>
      simp only [decide_eq_false_iff_not] at h
    · rcases lt_or_eq_of_le (not_lt.mp h) with hlt | heq
      · exact Or.inl hlt
      · exact absurd heq.symm h1
    · have e1 : b.Position.Filename = a.Position.Filename := not_not.mp h1
      rcases lt_or_eq_of_le (not_lt.mp h) with hlt | heq
      · exact Or.inr ⟨e1.symm, Or.inl hlt⟩
      · exact absurd heq.symm h2
    · have e1 : b.Position.Filename = a.Position.Filename := not_not.mp h1
      have e2 : b.Position.Line = a.Position.Line := not_not.mp h2
      rcases lt_or_eq_of_le (not_lt.mp h) with hlt | heq
      · exact Or.inr ⟨e1.symm, Or.inr ⟨e2.symm, Or.inl hlt⟩⟩
      · exact absurd heq.symm h3
    · have e1 : b.Position.Filename = a.Position.Filename := not_not.mp h1
      have e2 : b.Position.Line = a.Position.Line := not_not.mp h2
      have e3 : b.Position.Column = a.Position.Column := not_not.mp h3
      exact Or.inr ⟨e1.symm, Or.inr ⟨e2.symm, Or.inr ⟨e3.symm, not_lt.mp h⟩⟩⟩
  · intro hke
    unfold probLess
    split_ifs with h1 h2 h3 <;> simp only [decide_eq_false_iff_not]
    · rcases hke with h | ⟨e, _⟩
      · exact lt_asymm h
      · exact absurd e.symm h1
    · have e1 : b.Position.Filename = a.Position.Filename := not_not.mp h1
      rcases hke with h | ⟨e, hke2⟩
      · exact absurd (lt_of_lt_of_eq h e1) (lt_irrefl _)
      · rcases hke2 with h | ⟨e2, _⟩
        · exact lt_asymm h
        · exact absurd e2.symm h2
    · have e1 : b.Position.Filename = a.Position.Filename := not_not.mp h1
      have e2 : b.Position.Line = a.Position.Line := not_not.mp h2
      rcases hke with h | ⟨e, hke2⟩
      · exact absurd (lt_of_lt_of_eq h e1) (lt_irrefl _)
      · rcases hke2 with h | ⟨f, hke3⟩
        · exact absurd (lt_of_lt_of_eq h e2) (lt_irrefl _)
        · rcases hke3 with h | ⟨f3, _⟩
          · exact lt_asymm h
          · exact absurd f3.symm h3
    · have e1 : b.Position.Filename = a.Position.Filename := not_not.mp h1
      have e2 : b.Position.Line = a.Position.Line := not_not.mp h2
      have e3 : b.Position.Column = a.Position.Column := not_not.mp h3
      rcases hke with h | ⟨e, hke2⟩
      · exact absurd (lt_of_lt_of_eq h e1) (lt_irrefl _)
      · rcases hke2 with h | ⟨f, hke3⟩
        · exact absurd (lt_of_lt_of_eq h e2) (lt_irrefl _)
        · rcases hke3 with h | ⟨g, h4⟩
          · exact absurd (lt_of_lt_of_eq h e3) (lt_irrefl _)
          · exact not_lt.mpr h4

lemma probLe_iff (a b : Problem) : probLe a b = true ↔ keyLe a b := by
  unfold probLe
  rw [Bool.not_eq_true']
  exact probLess_false_iff a b

lemma probLe_trans_bool : ∀ a b c : Problem, probLe a b → probLe b c → probLe a c := by
  intro a b c h1 h2
  exact (probLe_iff a c).mpr
    (keyLe_trans a b c ((probLe_iff a b).mp h1) ((probLe_iff b c).mp h2))

lemma probLe_total_bool : ∀ a b : Problem, probLe a b || probLe b a := by
  intro a b
  rw [Bool.or_eq_true]
  exact (keyLe_total a b).imp ((probLe_iff a b).mpr) ((probLe_iff b a).mpr)

lemma uniqGo_sublist (l : List Problem) : ∀ prev, List.Sublist (uniqGo prev l) l := by
  induction l with
  | nil => intro prev; simp [uniqGo]
  | cons p rest ih =>
    intro prev
    unfold uniqGo
    split_ifs with h
    · exact (ih prev).cons p
    · exact (ih p).cons₂ p

lemma uniqProblems_sublist (l : List Problem) : List.Sublist (uniqProblems l) l := by
  cases l with
  | nil => simp [uniqProblems]
  | cons p rest => exact (uniqGo_sublist rest p).cons₂ p

lemma uniqGo_chain (l : List Problem) :
    ∀ prev, List.Chain' adjDistinct (prev :: uniqGo prev l) := by
  induction l with
  | nil => intro prev; simp [uniqGo]
  | cons p rest ih =>
    intro prev
    unfold uniqGo
    split_ifs with h
    · exact ih prev
    · exact List.chain'_cons.mpr ⟨h, ih p⟩

lemma uniqProblems_chain (l : List Problem) :
    List.Chain' adjDistinct (uniqProblems l) := by
  cases l with
  | nil => simp [uniqProblems]
  | cons p rest => exact uniqGo_chain rest p

lemma foldl_append_flatMap {α β : Type} (f : α → List β) :
    ∀ (l : List α) (a : List β),
      l.foldl (fun acc x => acc ++ f x) a = a ++ l.flatMap f := by
  intro l
  induction l with
  | nil => intro a; simp
  | cons x rest ih => intro a; simp [ih, List.append_assoc]

lemma lintPartition_go : ∀ (pkgs : List Package) (a : List Problem) (b : List Package),
    pkgs.foldl
      (fun acc pkg =>
        if pkg.IllTyped then (acc.1 ++ (compileErrors pkg).1, acc.2)
        else (acc.1, acc.2 ++ [pkg]))
      (a, b) =
    (a ++ (pkgs.filter (fun p => p.IllTyped)).flatMap (fun p => (compileErrors p).1),
     b ++ pkgs.filter (fun p => ! p.IllTyped)) := by
  intro pkgs
  induction pkgs with
  | nil => intro a b; simp
  | cons p rest ih =>
    intro a b
    by_cases h : p.IllTyped = true <;>
      simp [h, ih, List.append_assoc, List.filter_cons]

lemma lintPartition_eq (pkgs : List Package) :
    lintPartition pkgs =
      ((pkgs.filter (fun p => p.IllTyped)).flatMap (fun p => (compileErrors p).1),
       pkgs.filter (fun p => ! p.IllTyped)) := by
  unfold lintPartition
  rw [lintPartition_go]
  simp

lemma splitPred_length (p : Char → Bool) :
    ∀ cs : List Char, (splitPred p cs).length = cs.countP p + 1 := by
  intro cs
  induction cs with
  | nil => simp [splitPred]
  | cons c rest ih =>
    unfold splitPred
    cases hs : splitPred p rest with
    | nil => rw [hs] at ih; simp at ih
    | cons h t =>
      rw [hs] at ih
      by_cases hc : p c = true
      · simp only [List.countP_cons, hc, if_pos rfl] at ih ⊢
        simp [hc] at ih ⊢
        omega
      · simp only [List.countP_cons] at ih ⊢
        simp [hc] at ih ⊢
        omega

lemma splitChar_length_colon (part : List Char) :
    (splitChar ':' part).length = colonCount part + 1 := by
  unfold splitChar colonCount
  exact splitPred_length (fun c => c = ':') part

lemma parseIgnoreTokens_error_iff : ∀ parts : List (List Char),
    (∃ e, parseIgnoreTokens parts = .error e) ↔
      ∃ part ∈ parts, colonCount part ≠ 1 := by
  intro parts
  induction parts with
  | nil => simp [parseIgnoreTokens]
  | cons part rest ih =>
    have hlen : (splitChar ':' part).length = colonCount part + 1 :=
      splitChar_length_colon part
    constructor
    · intro ⟨e, he⟩
      unfold parseIgnoreTokens at he
      rcases hs : splitChar ':' part with _ | ⟨x, _ | ⟨y, _ | ⟨z, t⟩⟩⟩ <;>
        rw [hs] at he hlen
      · exact ⟨part, List.mem_cons_self part rest, by simp at hlen⟩
      · exact ⟨part, List.mem_cons_self part rest, by simp at hlen; omega⟩
      · cases hr : parseIgnoreTokens rest with
        | error e2 =>
          obtain ⟨p2, hp2, hc2⟩ := ih.mp ⟨e2, hr⟩
          exact ⟨p2, List.mem_cons_of_mem part hp2, hc2⟩
        | ok out => rw [hr] at he; simp at he
      · exact ⟨part, List.mem_cons_self part rest, by simp at hlen; omega⟩
    · intro ⟨p2, hp2, hc2⟩
      unfold parseIgnoreTokens
      rcases hs : splitChar ':' part with _ | ⟨x, _ | ⟨y, _ | ⟨z, t⟩⟩⟩
      · exact ⟨"malformed ignore string", rfl⟩
      · exact ⟨"malformed ignore string", rfl⟩
      · rcases List.mem_cons.mp hp2 with hpe | hpm
        · subst hpe
          rw [hs] at hlen
          simp at hlen
          omega
        · obtain ⟨e2, he2⟩ := ih.mpr ⟨p2, hpm, hc2⟩
          rw [he2]
          exact ⟨e2, rfl⟩
      · exact ⟨"malformed ignore string", rfl⟩

lemma parseIgnoreTokens_ok : ∀ (parts : List (List Char)) (out : List GlobIgnore),
    parseIgnoreTokens parts = .ok out → out = parts.map tokenRule := by
  intro parts
  induction parts with
  | nil => intro out h; simp [parseIgnoreTokens] at h; simp [h.symm]
  | cons part rest ih =>
    intro out h
    unfold parseIgnoreTokens at h
    rcases hs : splitChar ':' part with _ | ⟨x, _ | ⟨y, _ | ⟨z, t⟩⟩⟩ <;>
      rw [hs] at h <;> try simp at h
    cases hr : parseIgnoreTokens rest with
    | error e2 => rw [hr] at h; simp at h
    | ok o =>
      rw [hr] at h
      simp at h
      rw [List.map_cons, ← ih o hr, tokenRule, hs, ← h]

lemma countsOf_go (confs : String → Option CheckerConfig) :
    ∀ (ps : List Problem) (e w : Nat),
      ps.foldl
        (fun acc p =>
          match confs p.Checker with
          | none => (acc.1 + 1, acc.2)
          | some conf =>
              if conf.ExitNonZero then (acc.1 + 1, acc.2)
              else (acc.1, acc.2 + 1))
        (e, w) =
      (e + (ps.filter (fun p => isHard confs p)).length,
       w + (ps.filter (fun p => ! isHard confs p)).length) := by
  intro ps
  induction ps with
  | nil => intro e w; simp
  | cons p rest ih =>
    intro e w
    simp only [List.foldl_cons]
    cases hc : confs p.Checker with
    | none =>
      simp only [hc, ih, List.filter_cons, isHard]
      simp [Prod.ext_iff]
      omega
    | some conf =>
      cases hb : conf.ExitNonZero with
      | true =>
        simp only [hc, hb, if_pos rfl, ih, List.filter_cons, isHard]
        simp [Prod.ext_iff]
        omega
      | false =>
        simp only [hc, hb, ih, List.filter_cons, isHard]
        simp [Prod.ext_iff]
        omega

lemma countsOf_eq (confs : String → Option CheckerConfig) (ps : List Problem) :
    countsOf confs ps =
      ((ps.filter (fun p => isHard confs p)).length,
       (ps.filter (fun p => ! isHard confs p)).length) := by
  unfold countsOf
  rw [countsOf_go]
  simp

lemma atoi_dash (t : List Char) :
    atoi ('-' :: t) =
      (if t.isEmpty then ((0 : Int), true)
       else if ¬ t.all Char.isDigit then ((0 : Int), true)
       else if 2 ^ 63 < digitsVal t then (- (2 ^ 63 : Int), true)
       else (- (digitsVal t : Int), false)) := by
  simp [atoi]

lemma atoi_plus (t : List Char) :
    atoi ('+' :: t) =
      (if t.isEmpty then ((0 : Int), true)
       else if ¬ t.all Char.isDigit then ((0 : Int), true)
       else if 2 ^ 63 ≤ digitsVal t then ((2 ^ 63 : Int) - 1, true)
       else ((digitsVal t : Int), false)) := by
  simp [atoi]

lemma atoi_ord (c : Char) (t : List Char) (hm : c ≠ '-') (hp : c ≠ '+') :
    atoi (c :: t) =
      (if ¬ (c :: t).all Char.isDigit then ((0 : Int), true)
       else if 2 ^ 63 ≤ digitsVal (c :: t) then ((2 ^ 63 : Int) - 1, true)
       else ((digitsVal (c :: t) : Int), false)) := by
  simp [atoi, hm, hp]

lemma atoi_eq_ok_iff (cs : List Char) (n : Int) :
    atoi cs = (n, false) ↔
      ∃ sgn ds, (sgn = ([] : List Char) ∨ sgn = ['+'] ∨ sgn = ['-']) ∧
        ds ≠ [] ∧ ds.all Char.isDigit = true ∧ cs = sgn ++ ds ∧
        (if sgn = ['-'] then digitsVal ds ≤ 2 ^ 63 else digitsVal ds < 2 ^ 63) ∧
        n = (if sgn = ['-'] then - (digitsVal ds : Int) else (digitsVal ds : Int)) := by
  constructor
  · intro h
    cases cs with
    | nil => simp [atoi] at h
    | cons c t =>
      by_cases hm : c = '-'
      · subst hm
        rw [atoi_dash] at h
        split_ifs at h with h1 h2 h3 <;> simp at h
        refine ⟨['-'], t, Or.inr (Or.inr rfl), ?_, h2, rfl, ?_, ?_⟩
        · intro he; exact h1 (by simp [he])
        · rw [if_pos rfl]; exact not_lt.mp h3
        · rw [if_pos rfl]; exact h.symm
      · by_cases hp : c = '+'
        · subst hp
          rw [atoi_plus] at h
          split_ifs at h with h1 h2 h3 <;> simp at h
          refine ⟨['+'], t, Or.inr (Or.inl rfl), ?_, h2, rfl, ?_, ?_⟩
          · intro he; exact h1 (by simp [he])
          · rw [if_neg (by decide)]; exact not_le.mp h3
          · rw [if_neg (by decide)]; exact h.symm
        · rw [atoi_ord c t hm hp] at h
          split_ifs at h with h1 h2 <;> simp at h
          refine ⟨[], c :: t, Or.inl rfl, by simp, h1, rfl, ?_, ?_⟩
          · rw [if_neg (by simp)]; exact not_le.mp h2
          · rw [if_neg (by simp)]; exact h.symm
  · intro ⟨sgn, ds, hsgn, hne, hall, heq, hrange, hval⟩
    obtain ⟨c, t, rfl⟩ : ∃ c t, ds = c :: t := by
      cases ds with
      | nil => exact absurd rfl hne
      | cons c t => exact ⟨c, t, rfl⟩
    have hc : c.isDigit = true := by
      simp only [List.all_cons, Bool.and_eq_true] at hall
      exact hall.1
    have hcm : c ≠ '-' := by
      intro hh; rw [hh] at hc; exact absurd hc (by decide)
    have hcp : c ≠ '+' := by
      intro hh; rw [hh] at hc; exact absurd hc (by decide)
    rcases hsgn with rfl | rfl | rfl
    · rw [List.nil_append] at heq
      subst heq
      rw [if_neg (by simp)] at hrange
      rw [if_neg (by simp)] at hval
      rw [atoi_ord c t hcm hcp, if_neg (not_not.mpr hall),
        if_neg (not_le.mpr hrange), hval]
    · rw [List.cons_append, List.nil_append] at heq
      subst heq
      rw [if_neg (by decide)] at hrange
      rw [if_neg (by decide)] at hval
      rw [atoi_plus, if_neg (by simp), if_neg (not_not.mpr hall),
        if_neg (not_le.mpr hrange), hval]
    · rw [List.cons_append, List.nil_append] at heq
      subst heq
      rw [if_pos rfl] at hrange
      rw [if_pos rfl] at hval
      rw [atoi_dash, if_neg (by simp), if_neg (not_not.mpr hall),
        if_neg (not_lt.mpr hrange), hval]

lemma Lint_error (cs : List Checker) (pkgs : List Package) (opt : Options)
    (e : String) (h : parseIgnore opt.Ignores = .error e) :
    Lint cs pkgs opt = .error e := by
  unfold Lint
  rw [h]

lemma Lint_shortCircuit (cs : List Checker) (pkgs : List Package) (opt : Options)
    (igs : List GlobIgnore) (hig : parseIgnore opt.Ignores = .ok igs)
    (hemp : (lintPartition pkgs).2.isEmpty = true) :
    Lint cs pkgs opt = .ok (lintPartition pkgs).1 := by
  unfold Lint
  rw [hig, hemp]
  simp

lemma Lint_main (cs : List Checker) (pkgs : List Package) (opt : Options)
    (igs : List GlobIgnore) (hig : parseIgnore opt.Ignores = .ok igs)
    (hne : (lintPartition pkgs).2.isEmpty = false) :
    Lint cs pkgs opt =
      .ok (lintSortDedup
        ((lintPartition pkgs).1 ++
          cs.foldl (fun acc c => acc ++ c (lintPartition pkgs).2) [])) := by
  unfold Lint
  rw [hig, hne]
  simp

lemma isEmpty_false_of_ne_nil {α : Type} {l : List α} (h : l ≠ []) :
    l.isEmpty = false := by
  cases l with
  | nil => exact absurd rfl h
  | cons a t => rfl

lemma chain'_of_length_lt_two {α : Type} {R : α → α → Prop} {l : List α}
    (h : l.length < 2) : l.Chain' R := by
  match l with
  | [] => exact List.chain'_nil
  | [x] => exact List.chain'_singleton x
  | x :: y :: t => exfalso; simp only [List.length_cons] at h; omega

/-- Claim C1 (counterexample): the diagnostic list returned by `Lint` is NOT
always sorted by (filename, line, column, message).  On the short-circuit
path — every loaded unit ill-typed — `Lint` returns the synthesized
diagnostics in synthesis order, before the sorting step: with the unit for
`b.go` loaded before the unit for `a.go`, the output starts with the `b.go`
diagnostic although its key is strictly greater. -/
theorem lint_shortCircuit_unsorted :
    Lint [] [pkgIllB, pkgIllA] defaultOptions = .ok [probB, probA] ∧
      ¬ keyLe probB probA := by
  refine ⟨rfl, ?_⟩
  have h1 : ¬ (probB.Position.Filename < probA.Position.Filename) := by
    rw [String.lt_iff_toList_lt]; decide
  have h2 : probB.Position.Filename ≠ probA.Position.Filename := by decide
  intro h
  rcases h with h | ⟨e, _⟩
  · exact h1 h
  · exact h2 e

/-- Claim C1 (amended): whenever at least one loaded unit is well-typed —
so the short-circuit return is not taken — every diagnostic list `Lint`
returns is sorted: any diagnostic is related to every later one by the
lexicographic order on (filename, line, column, message). -/
theorem lint_output_sorted (cs : List Checker) (pkgs : List Package)
    (opt : Options) (ps : List Problem)
    (hw : ∃ p ∈ pkgs, p.IllTyped = false)
    (hok : Lint cs pkgs opt = .ok ps) :
    ps.Pairwise keyLe := by
  have hne : (lintPartition pkgs).2.isEmpty = false := by
    rw [lintPartition_eq]
    obtain ⟨p, hp, hwt⟩ := hw
    exact isEmpty_false_of_ne_nil
      (List.ne_nil_of_mem (List.mem_filter.mpr ⟨hp, by simp [hwt]⟩))
  cases hig : parseIgnore opt.Ignores with
  | error e => rw [Lint_error cs pkgs opt e hig] at hok; simp at hok
  | ok igs =>
    rw [Lint_main cs pkgs opt igs hig hne] at hok
    rw [Except.ok.injEq] at hok
    subst hok
    have hsort :=
      List.sorted_mergeSort probLe_trans_bool probLe_total_bool
        ((lintPartition pkgs).1 ++
          cs.foldl (fun acc c => acc ++ c (lintPartition pkgs).2) [])
    have hkey := hsort.imp (fun h => (probLe_iff _ _).mp h)
    unfold lintSortDedup
    split_ifs with hlen
    · exact hkey
    · exact List.Pairwise.sublist (uniqProblems_sublist _) hkey

/-- Witness for `lint_output_sorted` at one well-typed unit: the run goes
through the sorting path and returns the empty sorted list. -/
theorem lint_output_sorted_witness : List.Pairwise keyLe ([] : List Problem) :=
  lint_output_sorted [] [pkgWell] defaultOptions []
    ⟨pkgWell, List.mem_cons_self pkgWell [], rfl⟩
    (by rw [Lint_main [] [pkgWell] defaultOptions [] rfl rfl]
        simp [lintSortDedup, lintPartition, List.mergeSort_nil, uniqProblems,
          pkgWell, Package.IllTyped])

/-- Claim C2 (counterexample): the returned list is NOT always free of
adjacent duplicates.  On the short-circuit path the deduplication loop is
never reached: a single ill-typed unit carrying the same explicit error
twice yields the same diagnostic twice, adjacent. -/
theorem lint_shortCircuit_dup :
    Lint [] [pkgDup] defaultOptions = .ok [probA, probA] ∧
      ¬ List.Chain' adjDistinct [probA, probA] := by
  refine ⟨rfl, ?_⟩
  intro h
  exact (List.chain'_cons.mp h).1 ⟨rfl, rfl⟩

/-- Claim C2 (amended): whenever at least one loaded unit is well-typed, no
two adjacent diagnostics of the returned list agree in (filename, line,
column) and message: the deduplication pass keeps the first of every run of
equal entries, across originating checkers. -/
theorem lint_no_adjacent_dup (cs : List Checker) (pkgs : List Package)
    (opt : Options) (ps : List Problem)
    (hw : ∃ p ∈ pkgs, p.IllTyped = false)
    (hok : Lint cs pkgs opt = .ok ps) :
    ps.Chain' adjDistinct := by
  have hne : (lintPartition pkgs).2.isEmpty = false := by
    rw [lintPartition_eq]
    obtain ⟨p, hp, hwt⟩ := hw
    exact isEmpty_false_of_ne_nil
      (List.ne_nil_of_mem (List.mem_filter.mpr ⟨hp, by simp [hwt]⟩))
  cases hig : parseIgnore opt.Ignores with
  | error e => rw [Lint_error cs pkgs opt e hig] at hok; simp at hok
  | ok igs =>
    rw [Lint_main cs pkgs opt igs hig hne] at hok
    rw [Except.ok.injEq] at hok
    subst hok
    unfold lintSortDedup
    split_ifs with hlen
    · exact chain'_of_length_lt_two hlen
    · exact uniqProblems_chain _

/-- Witness for `lint_no_adjacent_dup` at one well-typed unit. -/
theorem lint_no_adjacent_dup_witness :
    List.Chain' adjDistinct ([] : List Problem) :=
  lint_no_adjacent_dup [] [pkgWell] defaultOptions []
    ⟨pkgWell, List.mem_cons_self pkgWell [], rfl⟩
    (by rw [Lint_main [] [pkgWell] defaultOptions [] rfl rfl]
        simp [lintSortDedup, lintPartition, List.mergeSort_nil, uniqProblems,
          pkgWell, Package.IllTyped])

/-- Claim C3 (refuted by the code): `compileErrors` carries no visited set,
so on the smallest cyclic unit graph — one ill-typed unit with no explicit
errors importing itself — the recursion never returns: no recursion depth
(fuel) suffices. -/
theorem compileErrors_cycle_diverges :
    ∀ fuel, compileErrorsFuel cyclicGraph fuel 0 = none := by
  intro fuel
  induction fuel with
  | zero => rfl
  | succ k ih =>
    simp only [cyclicGraph] at ih
    simp [compileErrorsFuel, cyclicGraph, ih]

/-- Claim C4 (refuted by the code): for an error value of unrecognized
dynamic type, `compileErrors` writes the internal-error line to stderr and
then still appends the zero-valued `lint.Problem` to the returned list
(`ps = append(ps, p)` sits outside the type switch), so the unrecognized
error DOES contribute an entry; extraction of the remaining errors
continues. -/
theorem compileErrors_unhandled_appended :
    compileErrors pkgOther =
      ([zeroProblem, probA],
       ["internal error: unhandled error type *errors.errorString"]) ∧
      zeroProblem ∈ (compileErrors pkgOther).1 := by
  exact ⟨rfl, List.mem_cons_self _ _⟩

/-- Claim C5: with a parseable ignore text, a run in which every loaded
unit is ill-typed returns exactly the concatenated synthesized diagnostics
— independent of the registered checkers, none of which is invoked — and
whenever some unit is well-typed, every checker receives exactly the list
of all well-typed units while ill-typed units contribute only through
`compileErrors`. -/
theorem lint_partition_feed (cs : List Checker) (pkgs : List Package)
    (opt : Options) (igs : List GlobIgnore)
    (hig : parseIgnore opt.Ignores = .ok igs) :
    ((∀ p ∈ pkgs, p.IllTyped = true) →
      Lint cs pkgs opt = .ok (pkgs.flatMap (fun p => (compileErrors p).1))) ∧
    (pkgs.filter (fun p => ! p.IllTyped) ≠ [] →
      Lint cs pkgs opt = .ok (lintSortDedup
        ((pkgs.filter (fun p => p.IllTyped)).flatMap
            (fun p => (compileErrors p).1) ++
          cs.flatMap (fun c => c (pkgs.filter (fun p => ! p.IllTyped)))))) := by
  constructor
  · intro hall
    have hfe : pkgs.filter (fun p => ! p.IllTyped) = [] := by
      rw [List.filter_eq_nil_iff]
      intro a ha
      simp [hall a ha]
    have hemp : (lintPartition pkgs).2.isEmpty = true := by
      rw [lintPartition_eq]
      simp [hfe]
    rw [Lint_shortCircuit cs pkgs opt igs hig hemp, lintPartition_eq]
    have hfs : pkgs.filter (fun p => p.IllTyped) = pkgs := by
      rw [List.filter_eq_self]
      intro a ha
      exact hall a ha
    rw [hfs]
  · intro hne
    have hemp : (lintPartition pkgs).2.isEmpty = false := by
      rw [lintPartition_eq]
      exact isEmpty_false_of_ne_nil hne
    rw [Lint_main cs pkgs opt igs hig hemp, lintPartition_eq,
      foldl_append_flatMap]
    simp

/-- Witness for `lint_partition_feed`: one ill-typed unit short-circuits to
its synthesized diagnostics. -/
theorem lint_partition_feed_witness :
    Lint [] [pkgIllA] defaultOptions =
      .ok ([pkgIllA].flatMap (fun p => (compileErrors p).1)) :=
  (lint_partition_feed [] [pkgIllA] defaultOptions [] rfl).1
    (by intro p hp
        rw [List.mem_singleton.mp hp]
        rfl)

/-- Claim C6: the classification loop counts a diagnostic as an error iff
its checker id is absent from the registration map or registered with the
hard-failure flag, as a warning otherwise, and the run fails iff the error
count is positive — so a run whose diagnostics all come from registered
soft checkers succeeds. -/
theorem processExit_classification (confs : String → Option CheckerConfig)
    (ps : List Problem) :
    countsOf confs ps =
      ((ps.filter (fun p => isHard confs p)).length,
       (ps.filter (fun p => ! isHard confs p)).length) ∧
    (processExitFailure confs ps = true ↔ ∃ p ∈ ps, isHard confs p = true) ∧
    ((∀ p ∈ ps, isHard confs p = false) →
      processExitFailure confs ps = false) := by
  refine ⟨countsOf_eq confs ps, ?_, ?_⟩
  · unfold processExitFailure
    rw [countsOf_eq]
    simp [List.length_pos_iff_exists_mem, List.mem_filter]
  · intro hall
    unfold processExitFailure
    rw [countsOf_eq]
    have hf : ps.filter (fun p => isHard confs p) = [] := by
      rw [List.filter_eq_nil_iff]
      intro a ha
      simp [hall a ha]
    simp [hf]

/-- Witness for `processExit_classification`: one diagnostic from a
soft-registered checker does not fail the run. -/
theorem processExit_classification_witness :
    processExitFailure confsSoft psSoft = false :=
  (processExit_classification confsSoft psSoft).2.2 (by intro p hp; rfl)

/-- Claim C7: `parseIgnore` fails iff some whitespace-separated token of
the text has not exactly one colon; a parse error propagates out of `Lint`
unchanged for every unit graph and checker list, before any checker output
is consulted; and on success the rules are exactly one per token, the part
before the colon as path pattern and the comma-split of the part after it
as check patterns. -/
theorem parseIgnore_spec (s : String) (cs : List Checker)
    (pkgs : List Package) (opt : Options) :
    ((∃ e, parseIgnore s = .error e) ↔
      ∃ part ∈ goFields s.toList, colonCount part ≠ 1) ∧
    (∀ e, parseIgnore opt.Ignores = .error e → Lint cs pkgs opt = .error e) ∧
    (∀ rules, parseIgnore s = .ok rules →
      rules = (goFields s.toList).map tokenRule) := by
  refine ⟨?_, ?_, ?_⟩
  · unfold parseIgnore
    by_cases hemp : s.toList.isEmpty = true
    · rw [if_pos hemp]
      rw [List.isEmpty_iff.mp hemp]
      simp [goFields, splitPred]
    · rw [if_neg hemp]
      exact parseIgnoreTokens_error_iff (goFields s.toList)
  · intro e he
    exact Lint_error cs pkgs opt e he
  · intro rules hr
    unfold parseIgnore at hr
    by_cases hemp : s.toList.isEmpty = true
    · rw [if_pos hemp] at hr
      simp at hr
      rw [List.isEmpty_iff.mp hemp]
      simp [goFields, splitPred, hr.symm]
    · rw [if_neg hemp] at hr
      exact parseIgnoreTokens_ok _ rules hr

/-- Witness for `parseIgnore_spec`: scenario D of the specification, the
colonless token `badformat`, is a parse error. -/
theorem parseIgnore_spec_witness :
    ∃ e, parseIgnore ("badformat") = .error e :=
  (parseIgnore_spec ("badformat") [] [] defaultOptions).1.mpr
    ⟨("badformat").toList, by decide, by decide⟩

/-- Claim C8 (refuted by the code): the recursion over ill-typed
dependencies iterates the `Imports` map of the unit, whose Go iteration
order is not fixed: the same ill-typed unit, with the same import map
presented in two iteration orders (a permutation), synthesizes the two
diagnostics in different orders, so the output is not determined by the
unit graph alone. -/
theorem compileErrors_import_order_dependent :
    List.Perm pkgTransAB.Imports pkgTransBA.Imports ∧
      (compileErrors pkgTransAB).1 ≠ (compileErrors pkgTransBA).1 := by
  constructor
  · exact List.Perm.swap _ _ _
  · decide

/-- Claim C9 (counterexample): the setter does not accept exactly the
strings `1.` followed by a decimal integer: `1.9223372036854775808` (the
suffix is the decimal integer 2^63) is of that form and is nevertheless
rejected, because `strconv.Atoi` range-checks against the signed 64-bit
bounds. -/
theorem versionFlagSet_rejects_spec_form :
    specForm1N ("1.9223372036854775808") ∧
      (versionFlagSet 0 ("1.9223372036854775808")).2.isSome = true := by
  constructor
  · refine ⟨("9223372036854775808").toList, ?_, ?_, ?_⟩
    · decide
    · decide
    · rfl
  · rfl

/-- Claim C9 (amended): the setter accepts exactly the strings `1.`
followed by an optionally signed run of decimal digits whose value lies in
the signed 64-bit range, and on acceptance it stores the parsed value. -/
theorem versionFlagSet_accept_iff (v : Int) (s : String) (n : Int) :
    versionFlagSet v s = (n, none) ↔
      ∃ sgn ds, (sgn = ([] : List Char) ∨ sgn = ['+'] ∨ sgn = ['-']) ∧
        ds ≠ [] ∧ ds.all Char.isDigit = true ∧
        s.toList = '1' :: '.' :: (sgn ++ ds) ∧
        (if sgn = ['-'] then digitsVal ds ≤ 2 ^ 63
          else digitsVal ds < 2 ^ 63) ∧
        n = (if sgn = ['-'] then - (digitsVal ds : Int)
          else (digitsVal ds : Int)) := by
  unfold versionFlagSet
  generalize s.toList = cs
  rcases cs with _ | ⟨c0, _ | ⟨c1, _ | ⟨c2, rest⟩⟩⟩
  · simp [versionFlagSetList]
  · simp [versionFlagSetList]
  · simp only [versionFlagSetList]
    constructor
    · intro h
      simp at h
    · intro ⟨sgn, ds, hsg, hne, hall, heq, hr, hval⟩
      have : sgn ++ ds = [] := by
        have := heq
        simp only [List.cons.injEq] at this
        exact this.2.2.symm
      exact absurd (List.append_eq_nil.mp this).2 hne
  · by_cases h0 : c0 = '1'
    · by_cases h1 : c1 = '.'
      · subst h0
        subst h1
        simp only [versionFlagSetList]
        rw [if_neg (by simp), if_neg (by simp)]
        constructor
        · intro h
          have h2 : (atoi (c2 :: rest)).2 = false := by
            by_contra hb
            rw [Bool.not_eq_false] at hb
            rw [hb] at h
            simp at h
          rw [h2] at h
          simp only [Bool.false_eq_true, if_false] at h
          rw [Prod.mk.injEq] at h
          obtain ⟨hv, _⟩ := h
          obtain ⟨sgn, ds, hsg, hne, hall, heq, hr, hval⟩ :=
            (atoi_eq_ok_iff (c2 :: rest) n).mp
              (by rw [Prod.ext_iff]; exact ⟨hv, h2⟩)
          exact ⟨sgn, ds, hsg, hne, hall, by rw [heq], hr, hval⟩
        · intro ⟨sgn, ds, hsg, hne, hall, heq, hr, hval⟩
          simp only [List.cons.injEq, true_and] at heq
          rw [(atoi_eq_ok_iff (c2 :: rest) n).mpr
            ⟨sgn, ds, hsg, hne, hall, heq, hr, hval⟩]
          simp
      · simp only [versionFlagSetList]
        rw [if_neg (not_not_intro h0), if_pos h1]
        constructor
        · intro h
          simp at h
        · intro ⟨sgn, ds, hsg, hne, hall, heq, hr, hval⟩
          simp only [List.cons.injEq] at heq
          exact absurd heq.2.1 h1
    · simp only [versionFlagSetList]
      rw [if_pos h0]
      constructor
      · intro h
        simp at h
      · intro ⟨sgn, ds, hsg, hne, hall, heq, hr, hval⟩
        simp only [List.cons.injEq] at heq
        exact absurd heq.1 h0

/-- Witness for `versionFlagSet_accept_iff`: the accepted string `1.10`
decomposes as required. -/
theorem versionFlagSet_accept_iff_witness :
    ∃ sgn ds, (sgn = ([] : List Char) ∨ sgn = ['+'] ∨ sgn = ['-']) ∧
      ds ≠ [] ∧ ds.all Char.isDigit = true ∧
      ("1.10").toList = '1' :: '.' :: (sgn ++ ds) ∧
      (if sgn = ['-'] then digitsVal ds ≤ 2 ^ 63
        else digitsVal ds < 2 ^ 63) ∧
      (10 : Int) = (if sgn = ['-'] then - (digitsVal ds : Int)
        else (digitsVal ds : Int)) :=
  (versionFlagSet_accept_iff 0 ("1.10") 10).mp rfl

/-- Claim C10 (counterexample): on a failed parse the stored value is not
always the zero result: for `1.9223372036854775808` the setter errors and
stores the clamped value 2^63 - 1, which is neither zero nor the previous
value 5. -/
theorem versionFlagSet_overwrite_not_zero :
    versionFlagSet 5 ("1.9223372036854775808") =
      (9223372036854775807, some ("Atoi error")) ∧
      (9223372036854775807 : Int) ≠ 0 ∧ (9223372036854775807 : Int) ≠ 5 := by
  exact ⟨rfl, by decide, by decide⟩

/-- Claim C10 (amended): whenever the suffix after `1.` fails integer
parsing, the stored value is nevertheless overwritten — with the result of
the failed parse (zero for a syntactically invalid suffix, the clamped
64-bit bound for an out-of-range one), independently of the previous
value: the setter is not atomic. -/
theorem versionFlagSet_overwrites_on_error (v : Int) (c2 : Char)
    (rest : List Char) (herr : (atoi (c2 :: rest)).2 = true) :
    versionFlagSet v (String.mk ('1' :: '.' :: c2 :: rest)) =
      ((atoi (c2 :: rest)).1, some ("Atoi error")) := by
  unfold versionFlagSet
  have hl : (String.mk ('1' :: '.' :: c2 :: rest)).toList =
      '1' :: '.' :: c2 :: rest := rfl
  rw [hl]
  simp only [versionFlagSetList]
  rw [if_neg (by simp), if_neg (by simp), herr]
  simp

/-- Witness for `versionFlagSet_overwrites_on_error`: on the syntactically
invalid suffix `x` the stored value becomes the zero parse result. -/
theorem versionFlagSet_overwrites_witness :
    versionFlagSet 7 (String.mk ['1', '.', 'x']) = (0, some ("Atoi error")) :=
  versionFlagSet_overwrites_on_error 7 'x' [] (by rfl)
